import Mathlib

/-!
Verification of the WhatsApp chat time calculator
(`whatsapp-chat-time.ts` and its extended variant with monthly reports
and counting policies, called "the full script" below).

The program manipulates timestamps through the JavaScript `Date` object
with local wall-clock semantics and no time-zone conversion (per the
spec's non-goals).  We model an instant as a natural number: milliseconds
since 0000-01-01 00:00 local time, proleptic Gregorian calendar.
`new Date(y, m0, d, hh, mm)` (ECMAScript MakeDay / MakeTime with the
month argument already in range) becomes `mkDateMs`, and the field
getters (`getFullYear`, `getMonth`, `getDate`, `getHours`, `getMinutes`)
decode an instant via `civilFromDay`.  The ECMAScript quirk that a year
argument in 0..99 is interpreted as 1900+year is modelled by `jsYear`.
All decoding recursions are fuel-based so that every definition is
executable and kernel-reducible.
-/

/-- Gregorian leap-year test (ECMAScript `DaysInYear` condition). -/
def isLeap (y : Nat) : Bool :=
  (y % 4 == 0 && y % 100 != 0) || y % 400 == 0

/-- Days in year `y`. -/
def daysInYear (y : Nat) : Nat :=
  if isLeap y then 366 else 365

/-- Days in month `m` (1-based) of year `y`; 0 for an out-of-range month. -/
def daysInMonth (y m : Nat) : Nat :=
  match m with
  | 1 => 31
  | 2 => if isLeap y then 29 else 28
  | 3 => 31
  | 4 => 30
  | 5 => 31
  | 6 => 30
  | 7 => 31
  | 8 => 31
  | 9 => 30
  | 10 => 31
  | 11 => 30
  | 12 => 31
  | _ => 0

/-- Days of year `y` strictly before month `m` (1-based). -/
def daysBeforeMonth (y : Nat) : Nat → Nat
  | 0 => 0
  | m + 1 => daysBeforeMonth y m + daysInMonth y m

/-- Days strictly before year `y`, counted from year 0 (closed Gregorian
formula counting the leap years in `[0, y)`; the recurrence
`daysBeforeYear (y+1) = daysBeforeYear y + daysInYear y` is proved as
`daysBeforeYear_succ` below). -/
def daysBeforeYear (y : Nat) : Nat :=
  365 * y + (y + 3) / 4 - (y + 99) / 100 + (y + 399) / 400

/-- Day number of civil date `(y, m, d)` (ECMAScript `MakeDay` for an
in-range month argument: day number of the first of the month plus
`d - 1`; `d` may exceed the month length, in which case the date rolls
over into subsequent months exactly as `Date` does). -/
def encodeDay (y m d : Nat) : Nat :=
  daysBeforeYear y + daysBeforeMonth y m + (d - 1)

/-- Fuel-based year extraction: starting at year `y` with `n` days left,
step over whole years.  Returns the year reached and the remaining day
count within that year. -/
def yearOfDayAux : Nat → Nat → Nat → Nat × Nat
  | 0, y, n => (y, n)
  | fuel + 1, y, n =>
    if n < daysInYear y then (y, n) else yearOfDayAux fuel (y + 1) (n - daysInYear y)

/-- Fuel-based month extraction within year `y`. -/
def monthOfDayAux (y : Nat) : Nat → Nat → Nat → Nat × Nat
  | 0, m, r => (m, r)
  | fuel + 1, m, r =>
    if r < daysInMonth y m then (m, r) else monthOfDayAux y fuel (m + 1) (r - daysInMonth y m)

/-- A decoded civil date: year, 1-based month, 1-based day of month. -/
structure CivilDate where
  year : Nat
  month : Nat
  day : Nat
deriving DecidableEq, Repr

/-- Decode a day number into a civil date.  The year scan starts from the
lower bound `n / 366` (valid because every year has at most 366 days)
so that decoding is shallow enough to evaluate on concrete dates. -/
def civilFromDay (n : Nat) : CivilDate :=
  let yr := yearOfDayAux (n + 1) (n / 366) (n - daysBeforeYear (n / 366))
  let mr := monthOfDayAux yr.1 12 1 yr.2
  ⟨yr.1, mr.1, mr.2 + 1⟩

/-- ECMAScript year-argument quirk: `new Date(y, ...)` with `0 ≤ y ≤ 99`
uses year `1900 + y`. -/
def jsYear (y : Nat) : Nat :=
  if y < 100 then 1900 + y else y

/-- Model of `new Date(y, m - 1, d, hh, mm, 0, 0).getTime()` for a 1-based month
argument `m` (milliseconds since year 0, local time). -/
def mkDateMs (y m d hh mm : Nat) : Nat :=
  (daysBeforeYear (jsYear y) + daysBeforeMonth (jsYear y) m + (d - 1)) * 86400000
    + hh * 3600000 + mm * 60000

/-- Model of `Date.prototype.getFullYear` on an instant. -/
def getFullYear (t : Nat) : Nat := (civilFromDay (t / 86400000)).year

/-- Model of `Date.prototype.getMonth` (0-based month) on an instant. -/
def getMonth0 (t : Nat) : Nat := (civilFromDay (t / 86400000)).month - 1

/-- Model of `Date.prototype.getDate` on an instant. -/
def getDate (t : Nat) : Nat := (civilFromDay (t / 86400000)).day

/-- Model of `Date.prototype.getHours` on an instant. -/
def getHours (t : Nat) : Nat := t / 3600000 % 24

/-- Model of `Date.prototype.getMinutes` on an instant. -/
def getMinutes (t : Nat) : Nat := t / 60000 % 60

/-- Source `makeStrictLocalDate(y, m, d, hh, mm)`: build the date and
verify all fields read back unchanged; `null` (here `none`) on any
rollover.  Arguments are naturals since they come from `parseInt` on
all-digit regex captures. -/
def makeStrictLocalDate (y m d hh mm : Nat) : Option Nat :=
  let dt := mkDateMs y m d hh mm
  if getFullYear dt = y ∧ getMonth0 dt = m - 1 ∧ getDate dt = d ∧
      getHours dt = hh ∧ getMinutes dt = mm then
    some dt
  else
    none

/-- The start of the day following instant `t`, as the full script's
`splitSessionByDay` computes it:
`new Date(d.getFullYear(), d.getMonth(), d.getDate() + 1).getTime()`. -/
def nextMidnight (t : Nat) : Nat :=
  let c := civilFromDay (t / 86400000)
  (daysBeforeYear (jsYear c.year) + daysBeforeMonth (jsYear c.year) ((c.month - 1) + 1)
    + ((c.day + 1) - 1)) * 86400000

/-! ### Day keys (the source's string keys `YYYY-MM-DD` and `YYYY-MM`) -/

/-- Decimal digit character. -/
def digitChar (n : Nat) : Char := Char.ofNat (48 + n)

/-- Fuel-based decimal rendering of a natural number. -/
def natDigitsAux : Nat → Nat → List Char
  | 0, _ => []
  | fuel + 1, n => if n < 10 then [digitChar n] else natDigitsAux fuel (n / 10) ++ [digitChar (n % 10)]

/-- Decimal string of a natural number (JS template-literal rendering). -/
def natToStr (n : Nat) : String := ⟨natDigitsAux (n + 1) n⟩

/-- Source `pad2(n)`: two-digit zero padding. -/
def pad2 (n : Nat) : String := if n < 10 then "0" ++ natToStr n else natToStr n

/-- Source `dayKey(d)`: the string
`getFullYear() + "-" + pad2(getMonth() + 1) + "-" + pad2(getDate())`. -/
def dayKey (t : Nat) : String :=
  natToStr (getFullYear t) ++ "-" ++ pad2 (getMonth0 t + 1) ++ "-" ++ pad2 (getDate t)

/-- Source `monthKey(d)`: `getFullYear() + "-" + pad2(getMonth() + 1)`. -/
def monthKey (t : Nat) : String :=
  natToStr (getFullYear t) ++ "-" ++ pad2 (getMonth0 t + 1)

/-- The day key determined by a day number alone. -/
def dayKeyOfDayNum (n : Nat) : String :=
  natToStr (civilFromDay n).year ++ "-" ++ pad2 ((civilFromDay n).month - 1 + 1) ++ "-" ++
    pad2 (civilFromDay n).day


/-! ### Data model: messages, sessions, day slices -/

/-- A parsed message; `groupSessions` inspects only the timestamp. -/
structure Message where
  ts : Nat
  sender : Option String
  text : String

/-- A conversational session (source object `{start, end, count}`; the
`end` field is named `endTs` because `end` is reserved in Lean). -/
structure Session where
  start : Nat
  endTs : Nat
  count : Nat
deriving DecidableEq, Repr

/-- A fragment of a session confined to one calendar day
(source object `{day, ms}`). -/
structure DaySlice where
  day : String
  ms : Nat
deriving DecidableEq, Repr

/-! ### Day splitter (source `splitSessionByDay`) -/

/-- The `while (start < end)` loop of `splitSessionByDay`, fuel-based.
Each iteration advances by at least 1 ms, so fuel `stop - start`
suffices; with adequate fuel the fuel-exhaustion branch is unreachable. -/
def splitGo : Nat → Nat → Nat → List DaySlice
  | 0, _, _ => []
  | fuel + 1, start, stop =>
    if start < stop then
      (⟨dayKey start, min stop (nextMidnight start) - start⟩ : DaySlice) ::
        splitGo fuel (min stop (nextMidnight start)) stop
    else []

/-- Source `splitSessionByDay(s)` (full-script variant: the zero-length
session is special-cased up front). -/
def splitSessionByDay (s : Session) : List DaySlice :=
  if s.start = s.endTs then [⟨dayKey s.start, 0⟩]
  else splitGo (s.endTs - s.start) s.start s.endTs
/-- Number of local midnights strictly inside the span `(a, b)` — the
midnights a session running from `a` to `b` crosses (an endpoint exactly
on a midnight does not cross it). -/
def midnightsCrossed (a b : Nat) : Nat :=
  ((Finset.Ioo a b).filter (fun t => t % 86400000 = 0)).card

/-! ### Text normalizer (source `normalizeDigits`, `stripWeirdSpaces`) -/

/-- The `arabicIndicMap` lookup, keyed by code point. -/
def arabicIndicVal (n : Nat) : Option Char :=
  if n = 0x660 then some '0'
  else if n = 0x661 then some '1'
  else if n = 0x662 then some '2'
  else if n = 0x663 then some '3'
  else if n = 0x664 then some '4'
  else if n = 0x665 then some '5'
  else if n = 0x666 then some '6'
  else if n = 0x667 then some '7'
  else if n = 0x668 then some '8'
  else if n = 0x669 then some '9'
  else if n = 0x66B then some '.'
  else if n = 0x66C then some ','
  else none

/-- The regex class `[٠-٩٫٬]`. -/
def inArabClass (n : Nat) : Bool :=
  (0x660 ≤ n && n ≤ 0x669) || n = 0x66B || n = 0x66C

/-- Per-character action of `normalizeDigits`: characters in the class
are replaced by `arabicIndicMap[ch] ?? ch`. -/
def normChar (c : Char) : Char :=
  if inArabClass c.toNat then (arabicIndicVal c.toNat).getD c else c

/-- Source `normalizeDigits(s)`. -/
def normalizeDigits (s : String) : String := ⟨s.data.map normChar⟩

/-- The regex class `[‎‏  ]`. -/
def inWeirdClass (n : Nat) : Bool :=
  n = 0x200E || n = 0x200F || n = 0x202F || n = 0xA0

/-- Per-character action of `stripWeirdSpaces`: RTL marks and narrow or
non-breaking spaces become an ordinary space. -/
def stripChar (c : Char) : Char :=
  if inWeirdClass c.toNat then ' ' else c

/-- Source `stripWeirdSpaces(s)`. -/
def stripWeirdSpaces (s : String) : String := ⟨s.data.map stripChar⟩

/-! ### The timestamp line grammar `LINE_RE`

`^(\d{1,2})[\/\-](\d{1,2})[\/\-](\d{2,4}),?\s+(\d{1,2}):(\d{2})`
`(?:\s?(AM|PM))?\s*[-–]\s*(.*)$` with the `i` flag.

The matcher below is a hand compilation of this regex.  Wherever regex
backtracking cannot change the outcome (a bounded digit run followed by
a token that never matches a digit, or a whitespace run followed by a
non-whitespace token) the deterministic maximal-munch rule is used; the
only place where backtracking matters, the optional AM/PM group, is
compiled to an explicit candidate list in the regex's preference
order. -/

/-- JavaScript regex `\s` (the ECMAScript WhiteSpace and LineTerminator
code points). -/
def jsWhitespace (c : Char) : Bool :=
  c.toNat = 0x20 || c.toNat = 0x09 || c.toNat = 0x0A || c.toNat = 0x0B ||
  c.toNat = 0x0C || c.toNat = 0x0D || c.toNat = 0xA0 || c.toNat = 0x1680 ||
  (0x2000 ≤ c.toNat && c.toNat ≤ 0x200A) || c.toNat = 0x2028 || c.toNat = 0x2029 ||
  c.toNat = 0x202F || c.toNat = 0x205F || c.toNat = 0x3000 || c.toNat = 0xFEFF

/-- JavaScript regex `\d` = `[0-9]`. -/
def isDigitCh (c : Char) : Bool := 48 ≤ c.toNat && c.toNat ≤ 57

/-- A char the regex `.` cannot match (ECMAScript LineTerminator). -/
def isLineTerm (c : Char) : Bool :=
  c.toNat = 0x0A || c.toNat = 0x0D || c.toNat = 0x2028 || c.toNat = 0x2029

/-- Model of `parseInt` on an all-digit capture. -/
def digitsVal (l : List Char) : Nat := l.foldl (fun a c => a * 10 + (c.toNat - 48)) 0

/-- The numeric captures of a successful `LINE_RE` match (`m[1]`..`m[6]`
plus the remainder capture `m[7]`).  The AM/PM capture keeps its raw
characters (the regex is case-insensitive). -/
structure LineMatch where
  n1 : Nat
  n2 : Nat
  year : Nat
  hour : Nat
  minute : Nat
  ampm : Option (Char × Char)
  rest : List Char

/-- Tail of the grammar after the optional AM/PM group:
`\s*[-–]\s*(.*)$`.  Returns the `(.*)` capture.  The final `\s*` may
swallow line terminators, but `.` cannot, so the match succeeds exactly
when no line terminator remains after the maximal whitespace run. -/
def lineRETail (l : List Char) : Option (List Char) :=
  match l.dropWhile jsWhitespace with
  | c :: t =>
    if c = '-' ∨ c = '–' then
      let rest := t.dropWhile jsWhitespace
      if rest.any isLineTerm then none else some rest
    else none
  | [] => none

/-- Case-insensitive `AM|PM`. -/
def isAmPmPair (p q : Char) : Bool :=
  (p = 'A' || p = 'a' || p = 'P' || p = 'p') && (q = 'M' || q = 'm')

/-- Candidates for the optional group `(?:\s?(AM|PM))?` in the regex's
preference order: with leading space, without, then group skipped. -/
def ampmCandidates (l : List Char) : List (Option (Char × Char) × List Char) :=
  (match l with
   | w :: p :: q :: rest =>
     if jsWhitespace w && isAmPmPair p q then [(some (p, q), rest)] else []
   | _ => []) ++
  (match l with
   | p :: q :: rest => if isAmPmPair p q then [(some (p, q), rest)] else []
   | _ => []) ++
  [(none, l)]

/-- Try the AM/PM candidates against the grammar tail, in order. -/
def ampmThenTail : List (Option (Char × Char) × List Char) →
    Option (Option (Char × Char) × List Char)
  | [] => none
  | (ap, rr) :: more =>
    match lineRETail rr with
    | some rest => some (ap, rest)
    | none => ampmThenTail more

/-- The full `LINE_RE` matcher (anchored at the start of the line). -/
def lineREMatch (l : List Char) : Option LineMatch :=
  let d1 := l.takeWhile isDigitCh
  if d1.length < 1 ∨ 2 < d1.length then none else
  match l.dropWhile isDigitCh with
  | s1 :: r2 =>
    if s1 = '/' ∨ s1 = '-' then
      let d2 := r2.takeWhile isDigitCh
      if d2.length < 1 ∨ 2 < d2.length then none else
      match r2.dropWhile isDigitCh with
      | s2 :: r4 =>
        if s2 = '/' ∨ s2 = '-' then
          let dy := r4.takeWhile isDigitCh
          if dy.length < 2 ∨ 4 < dy.length then none else
          let r5 := r4.dropWhile isDigitCh
          let r6 := match r5 with
            | ',' :: t => t
            | _ => r5
          if (r6.takeWhile jsWhitespace).length = 0 then none else
          let r7 := r6.dropWhile jsWhitespace
          let dh := r7.takeWhile isDigitCh
          if dh.length < 1 ∨ 2 < dh.length then none else
          match r7.dropWhile isDigitCh with
          | ':' :: r9 =>
            match r9 with
            | c1 :: c2 :: r10 =>
              if isDigitCh c1 && isDigitCh c2 then
                match ampmThenTail (ampmCandidates r10) with
                | some (ap, rest) =>
                  some ⟨digitsVal d1, digitsVal d2, digitsVal dy, digitsVal dh,
                        digitsVal [c1, c2], ap, rest⟩
                | none => none
              else none
            | _ => none
          | _ => none
        else none
      | [] => none
    else none
  | [] => none

/-! ### Date-order detector (source `detectDateOrder`) -/

/-- Detected interpretation of the two leading numeric fields. -/
inductive DateOrder
  | mdy
  | dmy
deriving DecidableEq, Repr

/-- Matcher for the tie-break regex `(?:\sAM|\sPM)\s*[-–]\s` at the
head of a suffix (note: case-sensitive, unlike `LINE_RE`). -/
def ampmMarkAt (l : List Char) : Bool :=
  match l with
  | w :: p :: q :: rest =>
    if jsWhitespace w && (p = 'A' || p = 'P') && q = 'M' then
      match rest.dropWhile jsWhitespace with
      | c :: t =>
        (c = '-' || c = '–') &&
          (match t with
           | c2 :: _ => jsWhitespace c2
           | [] => false)
      | [] => false
    else false
  | _ => false

/-- Unanchored `test` of the tie-break regex over a whole raw line. -/
def ampmBeforeSepTest (l : List Char) : Bool := l.tails.any ampmMarkAt

/-- Whether a line casts an MDY vote: it matches the grammar (after
normalization) with second field above 12 and first field at most 12. -/
def mdyVote (raw : String) : Bool :=
  match lineREMatch (normalizeDigits (stripWeirdSpaces raw)).data with
  | none => false
  | some r => decide (12 < r.n2 ∧ r.n1 ≤ 12)

/-- Whether a line casts a DMY vote (the symmetric case). -/
def dmyVote (raw : String) : Bool :=
  match lineREMatch (normalizeDigits (stripWeirdSpaces raw)).data with
  | none => false
  | some r => decide (12 < r.n1 ∧ r.n2 ≤ 12)

/-- Source `detectDateOrder(lines)`; the `--mdy` / `--dmy` configuration
flags are passed as parameters. -/
def detectDateOrder (forceMdy forceDmy : Bool) (lines : List String) : DateOrder :=
  if forceMdy then DateOrder.mdy
  else if forceDmy then DateOrder.dmy
  else
    let votes := lines.foldl
      (fun (acc : Nat × Nat) raw =>
        match lineREMatch (normalizeDigits (stripWeirdSpaces raw)).data with
        | none => acc
        | some r =>
          if 12 < r.n2 ∧ r.n1 ≤ 12 then (acc.1 + 1, acc.2)
          else if 12 < r.n1 ∧ r.n2 ≤ 12 then (acc.1, acc.2 + 1)
          else acc)
      (0, 0)
    if votes.2 < votes.1 then DateOrder.mdy
    else if votes.1 < votes.2 then DateOrder.dmy
    else if lines.any (fun l => ampmBeforeSepTest l.data) then DateOrder.mdy
    else DateOrder.dmy

/-! ### Session segmenter (source `groupSessions`) -/

/-- The segmentation loop: `cur` is the open session, `prev` the previous
message's timestamp.  The gap comparison is on integers exactly as in the
source (`curr - prev < th`). -/
def groupGo (th : Int) : Session → Nat → List Message → List Session
  | cur, _, [] => [cur]
  | cur, prev, m :: ms =>
    if (m.ts : Int) - (prev : Int) < th then
      groupGo th ⟨cur.start, m.ts, cur.count + 1⟩ m.ts ms
    else
      cur :: groupGo th ⟨m.ts, m.ts, 1⟩ m.ts ms

/-- Source `groupSessions(msgs, gapMin)`. -/
def groupSessions (msgs : List Message) (gapMin : Nat) : List Session :=
  match msgs with
  | [] => []
  | m0 :: rest => groupGo ((gapMin * 60 * 1000 : Nat) : Int) ⟨m0.ts, m0.ts, 1⟩ m0.ts rest

/-- Number of session boundaries the loop opens after the first message:
the adjacent gaps that are not strictly below the threshold. -/
def countSplits (th : Int) : Nat → List Message → Nat
  | _, [] => 0
  | prev, m :: ms =>
    (if (m.ts : Int) - (prev : Int) < th then 0 else 1) + countSplits th m.ts ms

/-! ### Aggregator (full-script aggregation loop) -/

/-- The `--count-by` configuration: `start` or `presence`. -/
inductive CountBy
  | start
  | presence
deriving DecidableEq, Repr

/-- JS `Map.prototype.get` on an association list in insertion order. -/
def getA (m : List (String × Nat)) (k : String) : Option Nat :=
  match m with
  | [] => none
  | (k', v) :: rest => if k' = k then some v else getA rest k

/-- JS `Map.prototype.set`: overwrite in place, or append a new key. -/
def setA (m : List (String × Nat)) (k : String) (v : Nat) : List (String × Nat) :=
  match m with
  | [] => [(k, v)]
  | (k', v') :: rest => if k' = k then (k, v) :: rest else (k', v') :: setA rest k v

/-- The source's accumulation idiom `map.set(k, (map.get(k) || 0) + d)`. -/
def bumpBy (m : List (String × Nat)) (k : String) (d : Nat) : List (String × Nat) :=
  setA m k ((getA m k).getD 0 + d)

/-- JS `String.prototype.split("-")` on the characters of a key. -/
def splitOnDash (l : List Char) : List (List Char) :=
  match l with
  | [] => [[]]
  | c :: rest =>
    let r := splitOnDash rest
    if c = '-' then [] :: r
    else
      match r with
      | h :: t => (c :: h) :: t
      | [] => [[c]]

/-- The month key the aggregation loop derives from a day key:
`const [y, m] = day.split("-")` then `` `${y}-${m}` `` (an absent
component renders as `undefined`, as in JS). -/
def monthOfDayKey (d : String) : String :=
  match splitOnDash d.data with
  | y :: m :: _ => String.mk y ++ "-" ++ String.mk m
  | [y] => String.mk y ++ "-undefined"
  | [] => "undefined-undefined"

/-- Model of `new Set(xs)` in iteration order: first occurrences, in order. -/
def dedupFirst (l : List String) : List String :=
  l.foldl (fun acc k => if k ∈ acc then acc else acc ++ [k]) []

/-- The four aggregation maps of the full script. -/
structure Agg where
  perDayDur : List (String × Nat)
  perDayCount : List (String × Nat)
  perMonthDur : List (String × Nat)
  perMonthCount : List (String × Nat)

/-- Duration folding (policy-independent part of the loop body). -/
def foldDurations (st : Agg) (parts : List DaySlice) : Agg :=
  parts.foldl
    (fun st p =>
      { st with
        perDayDur := bumpBy st.perDayDur p.day p.ms
        perMonthDur := bumpBy st.perMonthDur (monthOfDayKey p.day) p.ms })
    st

/-- Presence-policy count folding: one increment of the day counter and
one of the month counter per distinct day touched. -/
def foldPresenceCounts (st : Agg) (seenDays : List String) : Agg :=
  seenDays.foldl
    (fun st d =>
      { st with
        perDayCount := bumpBy st.perDayCount d 1
        perMonthCount := bumpBy st.perMonthCount (monthOfDayKey d) 1 })
    st

/-- One iteration of the aggregation loop `for (const s of sessions)`. -/
def stepSession (cb : CountBy) (st : Agg) (s : Session) : Agg :=
  let parts := splitSessionByDay s
  let st1 := foldDurations st parts
  match cb with
  | CountBy.presence => foldPresenceCounts st1 (dedupFirst (parts.map DaySlice.day))
  | CountBy.start =>
    { st1 with
      perDayCount := bumpBy st1.perDayCount (dayKey s.start) 1
      perMonthCount := bumpBy st1.perMonthCount (monthKey s.start) 1 }

/-- The whole aggregation loop over all sessions. -/
def aggregate (sessions : List Session) (cb : CountBy) : Agg :=
  sessions.foldl (stepSession cb) ⟨[], [], [], []⟩

/-- Total of all values of an aggregation map. -/
def mapTotal (m : List (String × Nat)) : Nat := (m.map Prod.snd).sum

/-! ### Calendar correctness lemmas -/

theorem isLeap_iff (y : Nat) :
    isLeap y = true ↔ ((y % 4 = 0 ∧ y % 100 ≠ 0) ∨ y % 400 = 0) := by
  simp [isLeap]

set_option maxHeartbeats 2000000 in
theorem daysBeforeYear_succ (y : Nat) :
    daysBeforeYear (y + 1) = daysBeforeYear y + daysInYear y := by
  by_cases h : isLeap y = true
  · have hd : daysInYear y = 366 := by simp [daysInYear, h]
    rw [hd]
    have h' := (isLeap_iff y).mp h
    unfold daysBeforeYear
    omega
  · have hb : isLeap y = false := by simpa using h
    have hd : daysInYear y = 365 := by simp [daysInYear, hb]
    rw [hd]
    have h' : ¬((y % 4 = 0 ∧ y % 100 ≠ 0) ∨ y % 400 = 0) := by
      rw [← isLeap_iff y, hb]; simp
    unfold daysBeforeYear
    omega

theorem daysInYear_pos (y : Nat) : 0 < daysInYear y := by
  unfold daysInYear; split <;> omega

theorem daysInYear_ge (y : Nat) : 365 ≤ daysInYear y := by
  unfold daysInYear; split <;> omega

theorem daysBeforeYear_add_le (a : Nat) : ∀ k, daysBeforeYear a ≤ daysBeforeYear (a + k)
  | 0 => Nat.le_refl _
  | k + 1 => by
    have h1 := daysBeforeYear_add_le a k
    have h2 : daysBeforeYear (a + (k + 1)) = daysBeforeYear (a + k) + daysInYear (a + k) :=
      daysBeforeYear_succ (a + k)
    omega

theorem daysBeforeYear_mono {a b : Nat} (h : a ≤ b) :
    daysBeforeYear a ≤ daysBeforeYear b := by
  have := daysBeforeYear_add_le a (b - a)
  have hab : a + (b - a) = b := by omega
  rwa [hab] at this

theorem daysBeforeMonth_add_le (y a : Nat) :
    ∀ k, daysBeforeMonth y a ≤ daysBeforeMonth y (a + k)
  | 0 => Nat.le_refl _
  | k + 1 => by
    have h1 := daysBeforeMonth_add_le y a k
    have h2 : daysBeforeMonth y (a + (k + 1)) =
        daysBeforeMonth y (a + k) + daysInMonth y (a + k) := rfl
    omega

theorem daysBeforeMonth_mono (y : Nat) {a b : Nat} (h : a ≤ b) :
    daysBeforeMonth y a ≤ daysBeforeMonth y b := by
  have := daysBeforeMonth_add_le y a (b - a)
  have hab : a + (b - a) = b := by omega
  rwa [hab] at this

theorem daysBeforeMonth_13 (y : Nat) : daysBeforeMonth y 13 = daysInYear y := by
  by_cases h : isLeap y = true
  · simp [daysBeforeMonth, daysInMonth, daysInYear, h]
  · simp only [Bool.not_eq_true] at h
    simp [daysBeforeMonth, daysInMonth, daysInYear, h]

/-- A valid day-of-month position lies strictly inside its year. -/
theorem valid_lt_daysInYear {y m d : Nat} (hm1 : 1 ≤ m) (hm2 : m ≤ 12)
    (hd1 : 1 ≤ d) (hd2 : d ≤ daysInMonth y m) :
    daysBeforeMonth y m + (d - 1) < daysInYear y := by
  have h1 : daysBeforeMonth y m + daysInMonth y m = daysBeforeMonth y (m + 1) := rfl
  have h2 : daysBeforeMonth y (m + 1) ≤ daysBeforeMonth y 13 :=
    daysBeforeMonth_mono y (by omega)
  rw [daysBeforeMonth_13] at h2
  omega

theorem yearOfDayAux_spec : ∀ fuel y0 n0, n0 ≤ 365 * fuel →
    y0 ≤ (yearOfDayAux fuel y0 n0).1 ∧
    (yearOfDayAux fuel y0 n0).2 < daysInYear (yearOfDayAux fuel y0 n0).1 ∧
    daysBeforeYear (yearOfDayAux fuel y0 n0).1 + (yearOfDayAux fuel y0 n0).2 =
      daysBeforeYear y0 + n0 := by
  intro fuel
  induction fuel with
  | zero =>
    intro y0 n0 h
    have hn : n0 = 0 := by omega
    subst hn
    exact ⟨Nat.le_refl _, daysInYear_pos y0, rfl⟩
  | succ fuel ih =>
    intro y0 n0 h
    by_cases hlt : n0 < daysInYear y0
    · simp [yearOfDayAux, hlt]
    · have hge := daysInYear_ge y0
      have h' : n0 - daysInYear y0 ≤ 365 * fuel := by omega
      have := ih (y0 + 1) (n0 - daysInYear y0) h'
      simp only [yearOfDayAux, hlt, if_false]
      refine ⟨by omega, this.2.1, ?_⟩
      have hby : daysBeforeYear (y0 + 1) = daysBeforeYear y0 + daysInYear y0 :=
        daysBeforeYear_succ y0
      omega

theorem monthOfDayAux_succ_lt {y m r : Nat} (fuel : Nat) (h : r < daysInMonth y m) :
    monthOfDayAux y (fuel + 1) m r = (m, r) := by
  simp [monthOfDayAux, h]

theorem monthOfDayAux_succ_ge {y m r : Nat} (fuel : Nat) (h : ¬ r < daysInMonth y m) :
    monthOfDayAux y (fuel + 1) m r = monthOfDayAux y fuel (m + 1) (r - daysInMonth y m) := by
  simp [monthOfDayAux, h]

theorem monthOfDayAux_spec : ∀ fuel y m0 r0, 13 ≤ m0 + fuel → 1 ≤ m0 →
    daysBeforeMonth y m0 + r0 < daysInYear y →
    m0 ≤ (monthOfDayAux y fuel m0 r0).1 ∧
    (monthOfDayAux y fuel m0 r0).1 ≤ 12 ∧
    (monthOfDayAux y fuel m0 r0).2 < daysInMonth y (monthOfDayAux y fuel m0 r0).1 ∧
    daysBeforeMonth y (monthOfDayAux y fuel m0 r0).1 + (monthOfDayAux y fuel m0 r0).2 =
      daysBeforeMonth y m0 + r0 := by
  intro fuel
  induction fuel with
  | zero =>
    intro y m0 r0 hf hm hlt
    exfalso
    have : daysBeforeMonth y 13 ≤ daysBeforeMonth y m0 := daysBeforeMonth_mono y (by omega)
    rw [daysBeforeMonth_13] at this
    omega
  | succ fuel ih =>
    intro y m0 r0 hf hm hlt
    by_cases hr : r0 < daysInMonth y m0
    · rw [monthOfDayAux_succ_lt fuel hr]
      refine ⟨Nat.le_refl _, ?_, hr, rfl⟩
      by_contra hgt
      have h13 : 13 ≤ m0 := by omega
      have : daysBeforeMonth y 13 ≤ daysBeforeMonth y m0 := daysBeforeMonth_mono y h13
      rw [daysBeforeMonth_13] at this
      omega
    · rw [monthOfDayAux_succ_ge fuel hr]
      have hstep : daysBeforeMonth y (m0 + 1) = daysBeforeMonth y m0 + daysInMonth y m0 := rfl
      have := ih y (m0 + 1) (r0 - daysInMonth y m0) (by omega) (by omega) (by omega)
      refine ⟨by omega, this.2.1, this.2.2.1, by omega⟩

/-- The function `daysBeforeYear` grows at most 366 days per year. -/
theorem daysBeforeYear_le_366 (y : Nat) : daysBeforeYear y ≤ 366 * y := by
  unfold daysBeforeYear
  omega

/-- Decoding a day number yields a valid civil date that encodes back to it. -/
theorem civilFromDay_spec (n : Nat) :
    1 ≤ (civilFromDay n).month ∧ (civilFromDay n).month ≤ 12 ∧
    1 ≤ (civilFromDay n).day ∧
    (civilFromDay n).day ≤ daysInMonth (civilFromDay n).year (civilFromDay n).month ∧
    encodeDay (civilFromDay n).year (civilFromDay n).month (civilFromDay n).day = n := by
  have hy := yearOfDayAux_spec (n + 1) (n / 366) (n - daysBeforeYear (n / 366)) (by omega)
  have hstart : daysBeforeYear (n / 366) ≤ n := by
    have := daysBeforeYear_le_366 (n / 366)
    omega
  have hb1 : daysBeforeMonth (yearOfDayAux (n + 1) (n / 366) (n - daysBeforeYear (n / 366))).1 1 +
      (yearOfDayAux (n + 1) (n / 366) (n - daysBeforeYear (n / 366))).2 <
      daysInYear (yearOfDayAux (n + 1) (n / 366) (n - daysBeforeYear (n / 366))).1 := by
    have h1 : daysBeforeMonth
        (yearOfDayAux (n + 1) (n / 366) (n - daysBeforeYear (n / 366))).1 1 = 0 := rfl
    omega
  have hm := monthOfDayAux_spec 12
    (yearOfDayAux (n + 1) (n / 366) (n - daysBeforeYear (n / 366))).1 1
    (yearOfDayAux (n + 1) (n / 366) (n - daysBeforeYear (n / 366))).2
    (by omega) (by omega) hb1
  have hc : civilFromDay n =
      ⟨(yearOfDayAux (n + 1) (n / 366) (n - daysBeforeYear (n / 366))).1,
       (monthOfDayAux (yearOfDayAux (n + 1) (n / 366) (n - daysBeforeYear (n / 366))).1 12 1
         (yearOfDayAux (n + 1) (n / 366) (n - daysBeforeYear (n / 366))).2).1,
       (monthOfDayAux (yearOfDayAux (n + 1) (n / 366) (n - daysBeforeYear (n / 366))).1 12 1
         (yearOfDayAux (n + 1) (n / 366) (n - daysBeforeYear (n / 366))).2).2 + 1⟩ :=
    rfl
  rw [hc]
  simp only [encodeDay]
  have h1 : daysBeforeMonth
      (yearOfDayAux (n + 1) (n / 366) (n - daysBeforeYear (n / 366))).1 1 = 0 := rfl
  exact ⟨by omega, hm.2.1, by omega, by omega, by omega⟩

/-- Two valid in-year positions with equal absolute day counts share the year. -/
theorem year_unique (y1 r1 y2 r2 : Nat) (h1 : r1 < daysInYear y1) (h2 : r2 < daysInYear y2)
    (heq : daysBeforeYear y1 + r1 = daysBeforeYear y2 + r2) : y1 = y2 := by
  by_contra hne
  rcases Nat.lt_or_ge y1 y2 with hlt | hge
  · have ha : daysBeforeYear (y1 + 1) ≤ daysBeforeYear y2 := daysBeforeYear_mono (by omega)
    have hb : daysBeforeYear (y1 + 1) = daysBeforeYear y1 + daysInYear y1 :=
      daysBeforeYear_succ y1
    omega
  · have hlt2 : y2 < y1 := by omega
    have ha : daysBeforeYear (y2 + 1) ≤ daysBeforeYear y1 := daysBeforeYear_mono (by omega)
    have hb : daysBeforeYear (y2 + 1) = daysBeforeYear y2 + daysInYear y2 :=
      daysBeforeYear_succ y2
    omega

/-- Two valid in-month positions with equal day-of-year counts share the month. -/
theorem month_unique (y m1 r1 m2 r2 : Nat) (h1 : r1 < daysInMonth y m1)
    (h2 : r2 < daysInMonth y m2)
    (heq : daysBeforeMonth y m1 + r1 = daysBeforeMonth y m2 + r2) : m1 = m2 := by
  by_contra hne
  rcases Nat.lt_or_ge m1 m2 with hlt | hge
  · have ha : daysBeforeMonth y (m1 + 1) ≤ daysBeforeMonth y m2 := daysBeforeMonth_mono y (by omega)
    have hb : daysBeforeMonth y (m1 + 1) = daysBeforeMonth y m1 + daysInMonth y m1 := rfl
    omega
  · have hlt2 : m2 < m1 := by omega
    have ha : daysBeforeMonth y (m2 + 1) ≤ daysBeforeMonth y m1 := daysBeforeMonth_mono y (by omega)
    have hb : daysBeforeMonth y (m2 + 1) = daysBeforeMonth y m2 + daysInMonth y m2 := rfl
    omega

/-- Decoding inverts encoding on valid civil dates. -/
theorem civilFromDay_encodeDay {y m d : Nat} (hm1 : 1 ≤ m) (hm2 : m ≤ 12)
    (hd1 : 1 ≤ d) (hd2 : d ≤ daysInMonth y m) :
    civilFromDay (encodeDay y m d) = ⟨y, m, d⟩ := by
  have hs := civilFromDay_spec (encodeDay y m d)
  rcases hE : civilFromDay (encodeDay y m d) with ⟨cy, cm, cd⟩
  rw [hE] at hs
  simp only at hs
  obtain ⟨hcm1, hcm2, hcd1, hcd2, hcenc⟩ := hs
  have henc : daysBeforeYear cy + (daysBeforeMonth cy cm + (cd - 1)) =
      daysBeforeYear y + (daysBeforeMonth y m + (d - 1)) := by
    simp only [encodeDay] at hcenc
    omega
  have hyv : daysBeforeMonth cy cm + (cd - 1) < daysInYear cy :=
    valid_lt_daysInYear hcm1 hcm2 hcd1 hcd2
  have hyv2 : daysBeforeMonth y m + (d - 1) < daysInYear y :=
    valid_lt_daysInYear hm1 hm2 hd1 hd2
  have hy : cy = y := year_unique cy (daysBeforeMonth cy cm + (cd - 1)) y
    (daysBeforeMonth y m + (d - 1)) hyv hyv2 henc
  subst hy
  have hmu : cm = m := month_unique cy cm (cd - 1) m (d - 1) (by omega) (by omega) (by omega)
  subst hmu
  have hd : cd = d := by omega
  subst hd
  rfl

/-! ### Time-of-day decoding -/

theorem time_decode (D hh mm : Nat) (hh2 : hh ≤ 23) (hmm : mm ≤ 59) :
    (D * 86400000 + hh * 3600000 + mm * 60000) / 86400000 = D ∧
    (D * 86400000 + hh * 3600000 + mm * 60000) / 3600000 % 24 = hh ∧
    (D * 86400000 + hh * 3600000 + mm * 60000) / 60000 % 60 = mm := by
  omega

theorem jsYear_of_ge {y : Nat} (h : 100 ≤ y) : jsYear y = y := by
  simp [jsYear]; omega

theorem makeStrictLocalDate_isSome_iff (y m d hh mm : Nat) :
    (makeStrictLocalDate y m d hh mm).isSome ↔
      (getFullYear (mkDateMs y m d hh mm) = y ∧
       getMonth0 (mkDateMs y m d hh mm) = m - 1 ∧
       getDate (mkDateMs y m d hh mm) = d ∧
       getHours (mkDateMs y m d hh mm) = hh ∧
       getMinutes (mkDateMs y m d hh mm) = mm) := by
  simp only [makeStrictLocalDate]
  split
  · simp_all
  · simp_all

/-- C4 — For every field tuple `(y, m, d, hh, mm)` that passes the range
checks (month 1..12, day 1..31, hour 0..23, minute 0..59), the parser's
strict date constructor accepts the timestamp if and only if reading
every field of the constructed local date reproduces the inputs exactly;
moreover for parser-reachable years (`100 ≤ y`, since two-digit years are
expanded by 2000 and three-or-four digit years are at least 100),
acceptance happens exactly when the day does not overflow the month, so
calendar rollover is rejected rather than silently normalized. -/
theorem C4_strict_date_roundtrip (y m d hh mm : Nat)
    (hm1 : 1 ≤ m) (hm2 : m ≤ 12) (hd1 : 1 ≤ d) (hd2 : d ≤ 31)
    (hh2 : hh ≤ 23) (hmm2 : mm ≤ 59) :
    ((makeStrictLocalDate y m d hh mm).isSome ↔
      (getFullYear (mkDateMs y m d hh mm) = y ∧
       getMonth0 (mkDateMs y m d hh mm) = m - 1 ∧
       getDate (mkDateMs y m d hh mm) = d ∧
       getHours (mkDateMs y m d hh mm) = hh ∧
       getMinutes (mkDateMs y m d hh mm) = mm)) ∧
    (100 ≤ y →
      ((makeStrictLocalDate y m d hh mm).isSome ↔ d ≤ daysInMonth y m)) := by
  refine ⟨makeStrictLocalDate_isSome_iff y m d hh mm, ?_⟩
  intro hy100
  have hjs : jsYear y = y := jsYear_of_ge hy100
  have hdiv : mkDateMs y m d hh mm / 86400000 = encodeDay y m d := by
    unfold mkDateMs encodeDay
    rw [hjs]
    exact (time_decode _ hh mm hh2 hmm2).1
  rw [makeStrictLocalDate_isSome_iff]
  constructor
  · intro hP
    obtain ⟨hY, hM, hD, _, _⟩ := hP
    have hspec := civilFromDay_spec (mkDateMs y m d hh mm / 86400000)
    unfold getFullYear at hY
    unfold getMonth0 at hM
    unfold getDate at hD
    rw [hdiv] at hY hM hD hspec
    have hmeq : (civilFromDay (encodeDay y m d)).month = m := by omega
    rw [hY, hmeq, hD] at hspec
    exact hspec.2.2.2.1
  · intro hdm
    have hdec : civilFromDay (encodeDay y m d) = ⟨y, m, d⟩ :=
      civilFromDay_encodeDay hm1 hm2 hd1 hdm
    have htime := time_decode (daysBeforeYear (jsYear y) + daysBeforeMonth (jsYear y) m
      + (d - 1)) hh mm hh2 hmm2
    refine ⟨?_, ?_, ?_, ?_, ?_⟩
    · unfold getFullYear
      rw [hdiv, hdec]
    · unfold getMonth0
      rw [hdiv, hdec]
    · unfold getDate
      rw [hdiv, hdec]
    · unfold getHours mkDateMs
      exact htime.2.1
    · unfold getMinutes mkDateMs
      exact htime.2.2

/-- Witness for C4 at a concrete input: in April 2025, day 31 is rejected
(April has 30 days) while day 30 is accepted. -/
theorem C4_strict_date_roundtrip_witness :
    ¬ (makeStrictLocalDate 2025 4 31 10 0).isSome ∧
      (makeStrictLocalDate 2025 4 30 10 0).isSome := by
  constructor
  · have h := (C4_strict_date_roundtrip 2025 4 31 10 0 (by decide) (by decide) (by decide)
      (by decide) (by decide) (by decide)).2 (by decide)
    intro hsome
    have h31 := h.mp hsome
    revert h31
    decide
  · have h := (C4_strict_date_roundtrip 2025 4 30 10 0 (by decide) (by decide) (by decide)
      (by decide) (by decide) (by decide)).2 (by decide)
    exact h.mpr (by decide)

/-! ### Midnight computation -/

theorem nextMidnight_eq {t : Nat} (h : 100 ≤ (civilFromDay (t / 86400000)).year) :
    nextMidnight t = (t / 86400000 + 1) * 86400000 := by
  have hs := civilFromDay_spec (t / 86400000)
  have hm' : (civilFromDay (t / 86400000)).month - 1 + 1 = (civilFromDay (t / 86400000)).month :=
    by omega
  simp only [nextMidnight, hm', Nat.add_sub_cancel, jsYear_of_ge h]
  congr 1
  have henc := hs.2.2.2.2
  simp only [encodeDay] at henc
  omega

theorem nextMidnight_gt (t : Nat) : t < nextMidnight t := by
  have hs := civilFromDay_spec (t / 86400000)
  by_cases hy : 100 ≤ (civilFromDay (t / 86400000)).year
  · rw [nextMidnight_eq hy]
    omega
  · have hm' : (civilFromDay (t / 86400000)).month - 1 + 1 =
        (civilFromDay (t / 86400000)).month := by omega
    have hjs : jsYear (civilFromDay (t / 86400000)).year =
        1900 + (civilFromDay (t / 86400000)).year := by
      simp [jsYear]; omega
    simp only [nextMidnight, hm', Nat.add_sub_cancel, hjs]
    have hstep : daysBeforeYear ((civilFromDay (t / 86400000)).year + 1) =
        daysBeforeYear (civilFromDay (t / 86400000)).year +
          daysInYear (civilFromDay (t / 86400000)).year :=
      daysBeforeYear_succ _
    have hmono : daysBeforeYear ((civilFromDay (t / 86400000)).year + 1) ≤
        daysBeforeYear (1900 + (civilFromDay (t / 86400000)).year) :=
      daysBeforeYear_mono (by omega)
    have hin : daysBeforeMonth (civilFromDay (t / 86400000)).year
        (civilFromDay (t / 86400000)).month + ((civilFromDay (t / 86400000)).day - 1) <
        daysInYear (civilFromDay (t / 86400000)).year :=
      valid_lt_daysInYear hs.1 hs.2.1 hs.2.2.1 hs.2.2.2.1
    have henc := hs.2.2.2.2
    simp only [encodeDay] at henc
    have hq : t / 86400000 + 1 ≤
        daysBeforeYear (1900 + (civilFromDay (t / 86400000)).year) +
          daysBeforeMonth (1900 + (civilFromDay (t / 86400000)).year)
            (civilFromDay (t / 86400000)).month +
          (civilFromDay (t / 86400000)).day := by
      omega
    have hmul := Nat.mul_le_mul_right 86400000 hq
    omega

/-- The bound `100 ≤ year` holds for every day number from year 100 onwards. -/
theorem civil_year_ge_100 {n : Nat} (h : 36525 ≤ n) : 100 ≤ (civilFromDay n).year := by
  have hs := civilFromDay_spec n
  by_contra hy
  have hin : daysBeforeMonth (civilFromDay n).year (civilFromDay n).month +
      ((civilFromDay n).day - 1) < daysInYear (civilFromDay n).year :=
    valid_lt_daysInYear hs.1 hs.2.1 hs.2.2.1 hs.2.2.2.1
  have henc := hs.2.2.2.2
  simp only [encodeDay] at henc
  have hstep : daysBeforeYear ((civilFromDay n).year + 1) =
      daysBeforeYear (civilFromDay n).year + daysInYear (civilFromDay n).year :=
    daysBeforeYear_succ _
  have hmono : daysBeforeYear ((civilFromDay n).year + 1) ≤ daysBeforeYear 100 :=
    daysBeforeYear_mono (by omega)
  have h100 : daysBeforeYear 100 = 36525 := by decide
  omega

theorem dayKey_eq_ofDayNum (t : Nat) : dayKey t = dayKeyOfDayNum (t / 86400000) := rfl

theorem splitGo_nil {a b : Nat} (fuel : Nat) (h : ¬ a < b) : splitGo fuel a b = [] := by
  cases fuel with
  | zero => rfl
  | succ fuel => simp [splitGo, h]

theorem splitGo_cons {a b : Nat} (fuel : Nat) (h : a < b) :
    splitGo (fuel + 1) a b =
      (⟨dayKey a, min b (nextMidnight a) - a⟩ : DaySlice) ::
        splitGo fuel (min b (nextMidnight a)) b := by
  simp [splitGo, h]

theorem splitGo_sum : ∀ fuel start stop, stop - start ≤ fuel →
    ((splitGo fuel start stop).map DaySlice.ms).sum = stop - start := by
  intro fuel
  induction fuel with
  | zero =>
    intro start stop h
    simp [splitGo]
    omega
  | succ fuel ih =>
    intro start stop h
    by_cases hlt : start < stop
    · rw [splitGo_cons fuel hlt]
      have hmid := nextMidnight_gt start
      have hle : min stop (nextMidnight start) ≤ stop := Nat.min_le_left _ _
      have hgt : start < min stop (nextMidnight start) := by omega
      have := ih (min stop (nextMidnight start)) stop (by omega)
      simp only [List.map_cons, List.sum_cons, this]
      omega
    · rw [splitGo_nil _ hlt]
      simp
      omega

/-- C3 — For every session with `start ≤ end`, the day slices' durations
(in milliseconds) sum exactly to `end − start` with no rounding, and a
session with `start == end` yields exactly one slice of duration 0 keyed
by the start's calendar day. -/
theorem C3_slice_durations (s : Session) (h : s.start ≤ s.endTs) :
    ((splitSessionByDay s).map DaySlice.ms).sum = s.endTs - s.start ∧
    (s.start = s.endTs → splitSessionByDay s = [⟨dayKey s.start, 0⟩]) := by
  constructor
  · unfold splitSessionByDay
    split
    · rename_i he
      simp [he]
    · exact splitGo_sum (s.endTs - s.start) s.start s.endTs (Nat.le_refl _)
  · intro he
    simp [splitSessionByDay, he]

set_option maxRecDepth 10000 in
/-- Witness for C3: a session from 2025-09-28 23:58 to 2025-09-29 00:05
(it crosses a midnight), and a zero-length session. -/
theorem C3_slice_durations_witness :
    ((splitSessionByDay ⟨mkDateMs 2025 9 28 23 58, mkDateMs 2025 9 29 0 5, 2⟩).map
      DaySlice.ms).sum = mkDateMs 2025 9 29 0 5 - mkDateMs 2025 9 28 23 58 ∧
    splitSessionByDay ⟨mkDateMs 2025 9 26 7 0, mkDateMs 2025 9 26 7 0, 1⟩ =
      [⟨dayKey (mkDateMs 2025 9 26 7 0), 0⟩] :=
  ⟨(C3_slice_durations ⟨mkDateMs 2025 9 28 23 58, mkDateMs 2025 9 29 0 5, 2⟩ (by decide)).1,
   (C3_slice_durations ⟨mkDateMs 2025 9 26 7 0, mkDateMs 2025 9 26 7 0, 1⟩ (by decide)).2 rfl⟩

/-! ### Midnight counting and the slice-per-day structure (C6) -/

theorem midnightsCrossed_eq {a b : Nat} (h : a < b) :
    midnightsCrossed a b = (b - 1) / 86400000 - a / 86400000 := by
  unfold midnightsCrossed
  have hinj : Function.Injective (fun k : Nat => k * 86400000) := by
    intro x y hxy
    simp only at hxy
    omega
  have himg : (Finset.Ioo a b).filter (fun t => t % 86400000 = 0) =
      (Finset.Ioc (a / 86400000) ((b - 1) / 86400000)).image (fun k => k * 86400000) := by
    ext t
    simp only [Finset.mem_filter, Finset.mem_Ioo, Finset.mem_image, Finset.mem_Ioc]
    constructor
    · rintro ⟨⟨h1, h2⟩, h3⟩
      exact ⟨t / 86400000, ⟨by omega, by omega⟩, by omega⟩
    · rintro ⟨k, ⟨hk1, hk2⟩, rfl⟩
      refine ⟨⟨by omega, by omega⟩, by omega⟩
  rw [himg, Finset.card_image_of_injective _ hinj, Nat.card_Ioc]

theorem range_map_shift {α : Type} (f : Nat → α) (q n : Nat) :
    (List.range (n + 1)).map (fun i => f (q + i)) =
      f q :: (List.range n).map (fun i => f (q + 1 + i)) := by
  rw [List.range_succ_eq_map]
  simp only [List.map_cons, List.map_map, Nat.add_zero]
  congr 1
  apply List.map_congr_left
  intro i hi
  simp only [Function.comp_apply]
  congr 1
  omega

theorem splitGo_days : ∀ fuel start stop, stop - start ≤ fuel → start < stop →
    36525 ≤ start / 86400000 →
    (splitGo fuel start stop).map DaySlice.day =
      (List.range ((stop - 1) / 86400000 - start / 86400000 + 1)).map
        (fun i => dayKeyOfDayNum (start / 86400000 + i)) := by
  intro fuel
  induction fuel with
  | zero =>
    intro start stop hf hlt hbound
    omega
  | succ fuel ih =>
    intro start stop hf hlt hbound
    rw [splitGo_cons fuel hlt]
    have hyear : 100 ≤ (civilFromDay (start / 86400000)).year := civil_year_ge_100 hbound
    have hmid : nextMidnight start = (start / 86400000 + 1) * 86400000 := nextMidnight_eq hyear
    by_cases hcase : stop ≤ (start / 86400000 + 1) * 86400000
    · have hminEq : min stop (nextMidnight start) = stop := by
        rw [hmid]
        omega
      rw [hminEq, splitGo_nil fuel (by omega : ¬ stop < stop)]
      have hq : (stop - 1) / 86400000 = start / 86400000 := by omega
      rw [hq]
      simp [dayKey_eq_ofDayNum, List.range_succ]
    · have hminEq : min stop (nextMidnight start) = (start / 86400000 + 1) * 86400000 := by
        rw [hmid]
        omega
      rw [hminEq]
      have hlt2 : (start / 86400000 + 1) * 86400000 < stop := by omega
      have hdiv2 : ((start / 86400000 + 1) * 86400000) / 86400000 = start / 86400000 + 1 := by
        omega
      have ih' := ih ((start / 86400000 + 1) * 86400000) stop (by omega) hlt2
        (by rw [hdiv2]; omega)
      rw [hdiv2] at ih'
      rw [List.map_cons, ih']
      have hge : start / 86400000 + 1 ≤ (stop - 1) / 86400000 := by omega
      have harith : ∀ q e1 : Nat, q + 1 ≤ e1 → e1 - q + 1 = (e1 - (q + 1) + 1) + 1 := by
        intro q e1 hq
        omega
      rw [harith (start / 86400000) ((stop - 1) / 86400000) hge,
        range_map_shift dayKeyOfDayNum (start / 86400000)
          ((stop - 1) / 86400000 - (start / 86400000 + 1) + 1)]
      simp [dayKey_eq_ofDayNum]

/-- C6 — A session whose span crosses `N` local midnights splits into
exactly `N + 1` day slices, one per calendar day touched, in
chronological order: the slice days are the keys of the consecutive day
numbers starting at the start's day (this also covers a session ending
exactly on a midnight, which does not cross that midnight).  The year
floor `36525 * 86400000 ≤ start` (year 100) reflects parser-reachable
timestamps, whose years are at least 100 after two-digit expansion. -/
theorem C6_slices_per_day (s : Session) (hbound : 36525 * 86400000 ≤ s.start)
    (h : s.start ≤ s.endTs) :
    (splitSessionByDay s).length = midnightsCrossed s.start s.endTs + 1 ∧
    (splitSessionByDay s).map DaySlice.day =
      (List.range (midnightsCrossed s.start s.endTs + 1)).map
        (fun i => dayKeyOfDayNum (s.start / 86400000 + i)) := by
  have hdiv : 36525 ≤ s.start / 86400000 := by omega
  have hmap : (splitSessionByDay s).map DaySlice.day =
      (List.range (midnightsCrossed s.start s.endTs + 1)).map
        (fun i => dayKeyOfDayNum (s.start / 86400000 + i)) := by
    by_cases he : s.start = s.endTs
    · have hmc : midnightsCrossed s.start s.endTs = 0 := by
        unfold midnightsCrossed
        rw [← he]
        simp
      rw [hmc]
      simp [splitSessionByDay, he, dayKey_eq_ofDayNum, List.range_succ]
    · have hlt : s.start < s.endTs := by omega
      have hdays := splitGo_days (s.endTs - s.start) s.start s.endTs (Nat.le_refl _) hlt hdiv
      rw [midnightsCrossed_eq hlt]
      simp only [splitSessionByDay, he, if_false]
      exact hdays
  refine ⟨?_, hmap⟩
  have hlen := congrArg List.length hmap
  simpa using hlen

set_option maxRecDepth 10000 in
/-- Witness for C6: the session 2025-09-28 23:58 → 2025-09-29 00:05
(one crossed midnight, two slices). -/
theorem C6_slices_per_day_witness :
    (splitSessionByDay ⟨mkDateMs 2025 9 28 23 58, mkDateMs 2025 9 29 0 5, 2⟩).length =
      midnightsCrossed (⟨mkDateMs 2025 9 28 23 58, mkDateMs 2025 9 29 0 5, 2⟩ : Session).start
        (⟨mkDateMs 2025 9 28 23 58, mkDateMs 2025 9 29 0 5, 2⟩ : Session).endTs + 1 :=
  (C6_slices_per_day ⟨mkDateMs 2025 9 28 23 58, mkDateMs 2025 9 29 0 5, 2⟩
    (by decide) (by decide)).1

/-! ### Normalizer idempotence (C10) -/

theorem normChar_not_arab (c : Char) : inArabClass (normChar c).toNat = false := by
  unfold normChar
  by_cases h : inArabClass c.toNat = true
  · rw [if_pos h]
    unfold inArabClass at h
    simp only [Bool.or_eq_true, Bool.and_eq_true, decide_eq_true_eq, beq_iff_eq] at h
    have henum : c.toNat = 1632 ∨ c.toNat = 1633 ∨ c.toNat = 1634 ∨ c.toNat = 1635 ∨
        c.toNat = 1636 ∨ c.toNat = 1637 ∨ c.toNat = 1638 ∨ c.toNat = 1639 ∨
        c.toNat = 1640 ∨ c.toNat = 1641 ∨ c.toNat = 1643 ∨ c.toNat = 1644 := by
      omega
    rcases henum with h' | h' | h' | h' | h' | h' | h' | h' | h' | h' | h' | h' <;>
      rw [h'] <;> rfl
  · rw [if_neg h]
    simpa using h

theorem stripChar_not_weird (c : Char) : inWeirdClass (stripChar c).toNat = false := by
  unfold stripChar
  by_cases h : inWeirdClass c.toNat = true
  · rw [if_pos h]
    rfl
  · rw [if_neg h]
    simpa using h

theorem stripChar_not_arab (c : Char) (h : inArabClass c.toNat = false) :
    inArabClass (stripChar c).toNat = false := by
  unfold stripChar
  split
  · rfl
  · exact h

theorem normChar_id (c : Char) (h : inArabClass c.toNat = false) : normChar c = c := by
  unfold normChar
  simp [h]

theorem stripChar_id (c : Char) (h : inWeirdClass c.toNat = false) : stripChar c = c := by
  unfold stripChar
  simp [h]

theorem charNormalize_idem (c : Char) :
    stripChar (normChar (stripChar (normChar c))) = stripChar (normChar c) := by
  have h1 : inArabClass (normChar c).toNat = false := normChar_not_arab c
  have h2 : inArabClass (stripChar (normChar c)).toNat = false := stripChar_not_arab _ h1
  have h3 : inWeirdClass (stripChar (normChar c)).toNat = false := stripChar_not_weird _
  rw [normChar_id _ h2, stripChar_id _ h3]

/-- C10 — Text normalization (digit-script normalization followed by
invisible-space stripping) is idempotent: applying the pair twice yields
exactly the same string as applying it once. -/
theorem C10_normalization_idempotent (s : String) :
    stripWeirdSpaces (normalizeDigits (stripWeirdSpaces (normalizeDigits s))) =
      stripWeirdSpaces (normalizeDigits s) := by
  show String.mk ((((s.data.map normChar).map stripChar).map normChar).map stripChar) =
    String.mk ((s.data.map normChar).map stripChar)
  congr 1
  rw [List.map_map, List.map_map, List.map_map, List.map_map]
  apply List.map_congr_left
  intro c _
  simp only [Function.comp_apply]
  exact charNormalize_idem c

/-! ### Date-order detection (C5) -/

theorem voteStep_eq (acc : Nat × Nat) (raw : String) :
    (match lineREMatch (normalizeDigits (stripWeirdSpaces raw)).data with
      | none => acc
      | some r =>
        if 12 < r.n2 ∧ r.n1 ≤ 12 then (acc.1 + 1, acc.2)
        else if 12 < r.n1 ∧ r.n2 ≤ 12 then (acc.1, acc.2 + 1)
        else acc) =
      (acc.1 + (if mdyVote raw then 1 else 0), acc.2 + (if dmyVote raw then 1 else 0)) := by
  unfold mdyVote dmyVote
  rcases hm : lineREMatch (normalizeDigits (stripWeirdSpaces raw)).data with _ | r
  · simp
  · by_cases hc1 : 12 < r.n2 ∧ r.n1 ≤ 12
    · have hn2 : ¬(12 < r.n1 ∧ r.n2 ≤ 12) := by omega
      simp [hc1, hn2]
    · by_cases hc2 : 12 < r.n1 ∧ r.n2 ≤ 12
      · simp [hc1, hc2]
      · simp [hc1, hc2]

theorem detect_fold (lines : List String) : ∀ acc : Nat × Nat,
    lines.foldl
      (fun (acc : Nat × Nat) raw =>
        match lineREMatch (normalizeDigits (stripWeirdSpaces raw)).data with
        | none => acc
        | some r =>
          if 12 < r.n2 ∧ r.n1 ≤ 12 then (acc.1 + 1, acc.2)
          else if 12 < r.n1 ∧ r.n2 ≤ 12 then (acc.1, acc.2 + 1)
          else acc) acc =
      (acc.1 + lines.countP mdyVote, acc.2 + lines.countP dmyVote) := by
  induction lines with
  | nil =>
    intro acc
    simp
  | cons raw rest ih =>
    intro acc
    simp only [List.foldl_cons, List.countP_cons]
    rw [voteStep_eq acc raw,
      ih (acc.1 + (if mdyVote raw then 1 else 0), acc.2 + (if dmyVote raw then 1 else 0))]
    cases hb1 : mdyVote raw <;> cases hb2 : dmyVote raw <;>
      simp [Prod.mk.injEq] <;> omega

/-- C5 — The date-order detector returns a forced order unconditionally;
otherwise MDY when strictly more grammar-matching lines vote MDY
(second field above 12, first at most 12) than DMY (the symmetric case),
DMY in the symmetric case, and on a tie — including zero votes — MDY
exactly when some raw line contains an AM/PM marker immediately before
the separator, else DMY. -/
theorem C5_date_order_detection (forceMdy forceDmy : Bool) (lines : List String) :
    detectDateOrder forceMdy forceDmy lines =
      (if forceMdy then DateOrder.mdy
       else if forceDmy then DateOrder.dmy
       else if lines.countP dmyVote < lines.countP mdyVote then DateOrder.mdy
       else if lines.countP mdyVote < lines.countP dmyVote then DateOrder.dmy
       else if lines.any (fun l => ampmBeforeSepTest l.data) then DateOrder.mdy
       else DateOrder.dmy) := by
  unfold detectDateOrder
  rcases forceMdy with _ | _
  · rcases forceDmy with _ | _
    · simp only [Bool.false_eq_true, if_false]
      rw [detect_fold lines (0, 0)]
      simp
    · simp
  · simp

/-! ### Session segmentation (C2, C7, C9) -/

theorem groupGo_length_eq : ∀ (rest : List Message) (th : Int) (cur : Session) (prev : Nat),
    (groupGo th cur prev rest).length = 1 + countSplits th prev rest := by
  intro rest
  induction rest with
  | nil =>
    intro th cur prev
    rfl
  | cons m ms ih =>
    intro th cur prev
    unfold groupGo countSplits
    by_cases hlt : (m.ts : Int) - (prev : Int) < th
    · rw [if_pos hlt, if_pos hlt, ih]
      omega
    · rw [if_neg hlt, if_neg hlt]
      simp only [List.length_cons, ih]
      omega

theorem countSplits_mono : ∀ (rest : List Message) (t1 t2 : Int) (prev : Nat), t1 ≤ t2 →
    countSplits t2 prev rest ≤ countSplits t1 prev rest := by
  intro rest
  induction rest with
  | nil =>
    intro t1 t2 prev h
    exact Nat.le_refl _
  | cons m ms ih =>
    intro t1 t2 prev h
    unfold countSplits
    have hrec := ih t1 t2 m.ts h
    by_cases h1 : (m.ts : Int) - (prev : Int) < t1
    · have h2 : (m.ts : Int) - (prev : Int) < t2 := by omega
      rw [if_pos h1, if_pos h2]
      omega
    · rw [if_neg h1]
      by_cases h2 : (m.ts : Int) - (prev : Int) < t2
      · rw [if_pos h2]
        omega
      · rw [if_neg h2]
        omega

theorem countSplits_of_nonpos : ∀ (rest : List Message) (th : Int) (prev : Nat), th ≤ 0 →
    List.Chain' (fun a b => a ≤ b) (prev :: rest.map Message.ts) →
    countSplits th prev rest = rest.length := by
  intro rest
  induction rest with
  | nil =>
    intro th prev hth hchain
    rfl
  | cons m ms ih =>
    intro th prev hth hchain
    rw [List.map_cons, List.chain'_cons] at hchain
    have hge : ¬ (m.ts : Int) - (prev : Int) < th := by
      have := hchain.1
      omega
    unfold countSplits
    rw [if_neg hge, ih th m.ts hth hchain.2]
    simp [Nat.add_comm]

/-- C2 (counterexample) — at gap threshold 0 two messages with identical
timestamps do NOT merge: the segmenter produces two sessions, because the
merge test `gap < 0` fails at gap 0. -/
theorem C2_identical_timestamps_counterexample :
    (groupSessions [⟨1000, none, ""⟩, ⟨1000, none, ""⟩] 0).length = 2 := rfl

/-- C2 (amended) — with gap threshold 0, nothing merges on a time-sorted
message sequence: every message opens its own session (the boundary test
is strict `<`, and a gap of 0 is not below 0), so the session count
equals the message count. -/
theorem C2_threshold_zero_no_merge (msgs : List Message)
    (hs : List.Chain' (fun a b => a.ts ≤ b.ts) msgs) :
    (groupSessions msgs 0).length = msgs.length := by
  cases msgs with
  | nil => rfl
  | cons m0 rest =>
    unfold groupSessions
    rw [groupGo_length_eq]
    have hchain : List.Chain' (fun a b => a ≤ b) (m0.ts :: rest.map Message.ts) := by
      have h' : List.Chain' (fun a b => a ≤ b) ((m0 :: rest).map Message.ts) :=
        (List.chain'_map Message.ts).mpr hs
      simpa using h'
    rw [countSplits_of_nonpos rest (((0 * 60 * 1000 : Nat) : Int)) m0.ts (by norm_num) hchain]
    simp [Nat.add_comm]

/-- Witness for the amended C2: two identical timestamps at threshold 0
still give one session per message. -/
theorem C2_threshold_zero_no_merge_witness :
    (groupSessions [⟨1000, none, ""⟩, ⟨1000, none, ""⟩] 0).length =
      ([⟨1000, none, ""⟩, ⟨1000, none, ""⟩] : List Message).length :=
  C2_threshold_zero_no_merge [⟨1000, none, ""⟩, ⟨1000, none, ""⟩]
    (List.chain'_pair.mpr (Nat.le_refl 1000))

/-- C7 — For a fixed time-sorted message sequence, the number of sessions
is monotonically non-increasing in the gap threshold: a larger threshold
merges at least as much. -/
theorem C7_session_count_antitone (msgs : List Message) (t1 t2 : Nat)
    (hs : List.Chain' (fun a b => a.ts ≤ b.ts) msgs) (h12 : t1 ≤ t2) :
    (groupSessions msgs t2).length ≤ (groupSessions msgs t1).length := by
  cases msgs with
  | nil => exact Nat.le_refl _
  | cons m0 rest =>
    unfold groupSessions
    rw [groupGo_length_eq, groupGo_length_eq]
    have hmono := countSplits_mono rest ((t1 * 60 * 1000 : Nat) : Int)
      ((t2 * 60 * 1000 : Nat) : Int) m0.ts (by omega)
    omega

/-- Witness for C7 at thresholds 1 and 5 on three concrete messages. -/
theorem C7_session_count_antitone_witness :
    (groupSessions [⟨60000, none, ""⟩, ⟨180000, none, ""⟩, ⟨480000, none, ""⟩] 5).length ≤
      (groupSessions [⟨60000, none, ""⟩, ⟨180000, none, ""⟩, ⟨480000, none, ""⟩] 1).length :=
  C7_session_count_antitone [⟨60000, none, ""⟩, ⟨180000, none, ""⟩, ⟨480000, none, ""⟩] 1 5
    (by simp [List.chain'_cons, List.chain'_pair]) (by omega)

/-! ### Segmenter invariants (C9) -/

theorem groupGo_count_sum : ∀ (rest : List Message) (th : Int) (cur : Session) (prev : Nat),
    ((groupGo th cur prev rest).map Session.count).sum = cur.count + rest.length := by
  intro rest
  induction rest with
  | nil =>
    intro th cur prev
    simp [groupGo]
  | cons m ms ih =>
    intro th cur prev
    unfold groupGo
    by_cases hlt : (m.ts : Int) - (prev : Int) < th
    · rw [if_pos hlt, ih]
      simp only [List.length_cons]
      omega
    · rw [if_neg hlt]
      simp only [List.map_cons, List.sum_cons, ih, List.length_cons]
      omega

theorem groupGo_wf : ∀ (rest : List Message) (th : Int) (cur : Session) (prev : Nat),
    1 ≤ cur.count → cur.start ≤ cur.endTs → cur.endTs = prev →
    List.Chain' (fun a b => a ≤ b) (prev :: rest.map Message.ts) →
    ∀ s ∈ groupGo th cur prev rest, 1 ≤ s.count ∧ s.start ≤ s.endTs := by
  intro rest
  induction rest with
  | nil =>
    intro th cur prev hc hse hep hchain s hmem
    simp [groupGo] at hmem
    subst hmem
    exact ⟨hc, hse⟩
  | cons m ms ih =>
    intro th cur prev hc hse hep hchain s hmem
    rw [List.map_cons, List.chain'_cons] at hchain
    unfold groupGo at hmem
    by_cases hlt : (m.ts : Int) - (prev : Int) < th
    · rw [if_pos hlt] at hmem
      exact ih th ⟨cur.start, m.ts, cur.count + 1⟩ m.ts (by show 1 ≤ cur.count + 1; omega)
        (by show cur.start ≤ m.ts; have h1 := hchain.1; omega) rfl hchain.2 s hmem
    · rw [if_neg hlt] at hmem
      rcases List.mem_cons.mp hmem with hcur | hrec
      · subst hcur
        exact ⟨hc, hse⟩
      · exact ih th ⟨m.ts, m.ts, 1⟩ m.ts (by simp) (by simp) rfl hchain.2 s hrec

theorem groupGo_head_start : ∀ (rest : List Message) (th : Int) (cur : Session) (prev : Nat),
    ∃ s t, groupGo th cur prev rest = s :: t ∧ s.start = cur.start := by
  intro rest
  induction rest with
  | nil =>
    intro th cur prev
    exact ⟨cur, [], rfl, rfl⟩
  | cons m ms ih =>
    intro th cur prev
    unfold groupGo
    by_cases hlt : (m.ts : Int) - (prev : Int) < th
    · rw [if_pos hlt]
      obtain ⟨s, t, heq, hst⟩ := ih th ⟨cur.start, m.ts, cur.count + 1⟩ m.ts
      exact ⟨s, t, heq, hst⟩
    · rw [if_neg hlt]
      exact ⟨cur, _, rfl, rfl⟩

theorem groupGo_chain : ∀ (rest : List Message) (th : Int) (cur : Session) (prev : Nat),
    cur.endTs = prev → 0 ≤ th →
    List.Chain' (fun a b => a.endTs ≤ b.start) (groupGo th cur prev rest) := by
  intro rest
  induction rest with
  | nil =>
    intro th cur prev hep hth
    simp [groupGo]
  | cons m ms ih =>
    intro th cur prev hep hth
    unfold groupGo
    by_cases hlt : (m.ts : Int) - (prev : Int) < th
    · rw [if_pos hlt]
      exact ih th ⟨cur.start, m.ts, cur.count + 1⟩ m.ts rfl hth
    · rw [if_neg hlt]
      have hrec := ih th ⟨m.ts, m.ts, 1⟩ m.ts rfl hth
      obtain ⟨s, t, heq, hst⟩ := groupGo_head_start ms th ⟨m.ts, m.ts, 1⟩ m.ts
      rw [heq]
      rw [heq] at hrec
      apply List.Chain'.cons
      · rw [hst]
        simp only
        omega
      · exact hrec

theorem groupGo_starts : ∀ (rest : List Message) (th : Int) (cur : Session) (prev : Nat),
    ∀ s ∈ groupGo th cur prev rest, s.start = cur.start ∨ ∃ m ∈ rest, s.start = m.ts := by
  intro rest
  induction rest with
  | nil =>
    intro th cur prev s hmem
    simp [groupGo] at hmem
    subst hmem
    exact Or.inl rfl
  | cons m ms ih =>
    intro th cur prev s hmem
    unfold groupGo at hmem
    by_cases hlt : (m.ts : Int) - (prev : Int) < th
    · rw [if_pos hlt] at hmem
      rcases ih th ⟨cur.start, m.ts, cur.count + 1⟩ m.ts s hmem with h1 | ⟨m', hm', he⟩
      · exact Or.inl h1
      · exact Or.inr ⟨m', List.mem_cons_of_mem m hm', he⟩
    · rw [if_neg hlt] at hmem
      rcases List.mem_cons.mp hmem with hcur | hrec
      · subst hcur
        exact Or.inl rfl
      · rcases ih th ⟨m.ts, m.ts, 1⟩ m.ts s hrec with h1 | ⟨m', hm', he⟩
        · exact Or.inr ⟨m, List.mem_cons_self m ms, h1⟩
        · exact Or.inr ⟨m', List.mem_cons_of_mem m hm', he⟩

/-- C9 — On a time-sorted message sequence the sessions partition the
input: session message counts sum to the number of messages, every
session has `count ≥ 1` and `start ≤ end`, sessions are in chronological
order (each ends no later than the next starts), and every session
starts at one of the input timestamps. -/
theorem C9_segmentation_invariants (msgs : List Message) (g : Nat)
    (hs : List.Chain' (fun a b => a.ts ≤ b.ts) msgs) :
    ((groupSessions msgs g).map Session.count).sum = msgs.length ∧
    (∀ s ∈ groupSessions msgs g, 1 ≤ s.count ∧ s.start ≤ s.endTs) ∧
    List.Chain' (fun a b => a.endTs ≤ b.start) (groupSessions msgs g) ∧
    (∀ s ∈ groupSessions msgs g, ∃ m ∈ msgs, s.start = m.ts) := by
  cases msgs with
  | nil =>
    simp [groupSessions]
  | cons m0 rest =>
    have hchain : List.Chain' (fun a b => a ≤ b) (m0.ts :: rest.map Message.ts) := by
      have h' : List.Chain' (fun a b => a ≤ b) ((m0 :: rest).map Message.ts) :=
        (List.chain'_map Message.ts).mpr hs
      simpa using h'
    unfold groupSessions
    refine ⟨?_, ?_, ?_, ?_⟩
    · rw [groupGo_count_sum]
      simp only [List.length_cons]
      omega
    · intro s hmem
      exact groupGo_wf rest _ ⟨m0.ts, m0.ts, 1⟩ m0.ts (by simp) (by simp) rfl hchain s hmem
    · exact groupGo_chain rest _ ⟨m0.ts, m0.ts, 1⟩ m0.ts rfl (by positivity) 
    · intro s hmem
      rcases groupGo_starts rest _ ⟨m0.ts, m0.ts, 1⟩ m0.ts s hmem with h1 | ⟨m', hm', he⟩
      · exact ⟨m0, List.mem_cons_self m0 rest, h1⟩
      · exact ⟨m', List.mem_cons_of_mem m0 hm', he⟩

/-- Witness for C9 on two concrete sorted messages. -/
theorem C9_segmentation_invariants_witness :
    ((groupSessions [⟨60000, none, ""⟩, ⟨180000, none, ""⟩] 3).map Session.count).sum =
      ([⟨60000, none, ""⟩, ⟨180000, none, ""⟩] : List Message).length :=
  (C9_segmentation_invariants [⟨60000, none, ""⟩, ⟨180000, none, ""⟩] 3
    (List.chain'_pair.mpr (by decide))).1

/-! ### Aggregation map lemmas (C8, C1) -/

theorem bumpBy_total (m : List (String × Nat)) (k : String) (d : Nat) :
    mapTotal (bumpBy m k d) = mapTotal m + d := by
  induction m with
  | nil => simp [bumpBy, setA, getA, mapTotal]
  | cons kv rest ih =>
    obtain ⟨k', v⟩ := kv
    by_cases hk : k' = k
    · subst hk
      simp [bumpBy, setA, getA, mapTotal]
      omega
    · have hstep : bumpBy ((k', v) :: rest) k d = (k', v) :: bumpBy rest k d := by
        simp [bumpBy, setA, getA, hk]
      rw [hstep]
      simp only [mapTotal, List.map_cons, List.sum_cons]
      have := ih
      simp only [mapTotal] at this
      omega

theorem foldDurations_counts (parts : List DaySlice) : ∀ st : Agg,
    (foldDurations st parts).perDayCount = st.perDayCount ∧
    (foldDurations st parts).perMonthCount = st.perMonthCount := by
  induction parts with
  | nil =>
    intro st
    exact ⟨rfl, rfl⟩
  | cons p rest ih =>
    intro st
    unfold foldDurations
    rw [List.foldl_cons]
    exact ih _

theorem foldPresenceCounts_day_total (ds : List String) : ∀ st : Agg,
    mapTotal (foldPresenceCounts st ds).perDayCount = mapTotal st.perDayCount + ds.length := by
  induction ds with
  | nil =>
    intro st
    rfl
  | cons d rest ih =>
    intro st
    unfold foldPresenceCounts
    rw [List.foldl_cons]
    have hrec := ih { st with
      perDayCount := bumpBy st.perDayCount d 1
      perMonthCount := bumpBy st.perMonthCount (monthOfDayKey d) 1 }
    unfold foldPresenceCounts at hrec
    rw [hrec]
    simp only [List.length_cons]
    rw [bumpBy_total]
    omega

theorem dedup_aux_ne : ∀ (l acc : List String), acc ≠ [] →
    l.foldl (fun acc k => if k ∈ acc then acc else acc ++ [k]) acc ≠ [] := by
  intro l
  induction l with
  | nil =>
    intro acc h
    exact h
  | cons x xs ih =>
    intro acc h
    rw [List.foldl_cons]
    apply ih
    split
    · exact h
    · simp

theorem dedupFirst_ne_nil (l : List String) (h : l ≠ []) : dedupFirst l ≠ [] := by
  cases l with
  | nil => exact absurd rfl h
  | cons x xs =>
    unfold dedupFirst
    rw [List.foldl_cons]
    apply dedup_aux_ne
    simp

theorem splitSessionByDay_ne_nil (s : Session) (h : s.start ≤ s.endTs) :
    splitSessionByDay s ≠ [] := by
  unfold splitSessionByDay
  split
  · simp
  · rename_i hne
    have hlt : s.start < s.endTs := by omega
    have hfuel : s.endTs - s.start = (s.endTs - s.start - 1) + 1 := by omega
    rw [hfuel, splitGo_cons _ hlt]
    simp

theorem stepSession_day_total (cb : CountBy) (st : Agg) (s : Session)
    (h : s.start ≤ s.endTs) :
    mapTotal st.perDayCount + 1 ≤ mapTotal (stepSession cb st s).perDayCount ∧
    (cb = CountBy.start →
      mapTotal (stepSession cb st s).perDayCount = mapTotal st.perDayCount + 1) := by
  have hd := foldDurations_counts (splitSessionByDay s) st
  cases cb with
  | start =>
    unfold stepSession
    simp only
    rw [bumpBy_total, hd.1]
    exact ⟨Nat.le_refl _, fun _ => rfl⟩
  | presence =>
    unfold stepSession
    simp only
    rw [foldPresenceCounts_day_total, hd.1]
    have hne : dedupFirst ((splitSessionByDay s).map DaySlice.day) ≠ [] := by
      apply dedupFirst_ne_nil
      simp only [ne_eq, List.map_eq_nil_iff]
      exact splitSessionByDay_ne_nil s h
    have hlen : 1 ≤ (dedupFirst ((splitSessionByDay s).map DaySlice.day)).length := by
      rcases hcase : dedupFirst ((splitSessionByDay s).map DaySlice.day) with _ | ⟨a, t⟩
      · exact absurd hcase hne
      · simp
    refine ⟨by omega, fun hcb => ?_⟩
    cases hcb

theorem aggAux_start : ∀ (ss : List Session) (st : Agg), (∀ s ∈ ss, s.start ≤ s.endTs) →
    mapTotal ((ss.foldl (stepSession CountBy.start) st).perDayCount) =
      mapTotal st.perDayCount + ss.length := by
  intro ss
  induction ss with
  | nil =>
    intro st h
    simp
  | cons s rest ih =>
    intro st h
    rw [List.foldl_cons]
    rw [ih (stepSession CountBy.start st s) (fun x hx => h x (List.mem_cons_of_mem s hx))]
    have hs := (stepSession_day_total CountBy.start st s
      (h s (List.mem_cons_self s rest))).2 rfl
    rw [hs]
    simp only [List.length_cons]
    omega

theorem aggAux_presence : ∀ (ss : List Session) (st : Agg), (∀ s ∈ ss, s.start ≤ s.endTs) →
    mapTotal st.perDayCount + ss.length ≤
      mapTotal ((ss.foldl (stepSession CountBy.presence) st).perDayCount) := by
  intro ss
  induction ss with
  | nil =>
    intro st h
    simp
  | cons s rest ih =>
    intro st h
    rw [List.foldl_cons]
    have h1 := (stepSession_day_total CountBy.presence st s
      (h s (List.mem_cons_self s rest))).1
    have h2 := ih (stepSession CountBy.presence st s)
      (fun x hx => h x (List.mem_cons_of_mem s hx))
    simp only [List.length_cons]
    omega

/-- C8 — For a session list satisfying the segmenter's `start ≤ end`
invariant: under the `start` policy the day-level session counts sum to
the total number of sessions; under `presence` they sum to at least that
total (each session bumps at least one day, its slices' days). -/
theorem C8_day_count_totals (sessions : List Session)
    (h : ∀ s ∈ sessions, s.start ≤ s.endTs) :
    mapTotal ((aggregate sessions CountBy.start).perDayCount) = sessions.length ∧
    sessions.length ≤ mapTotal ((aggregate sessions CountBy.presence).perDayCount) := by
  constructor
  · unfold aggregate
    rw [aggAux_start sessions ⟨[], [], [], []⟩ h]
    simp [mapTotal]
  · unfold aggregate
    have := aggAux_presence sessions ⟨[], [], [], []⟩ h
    simpa [mapTotal] using this

/-- Witness for C8 on one concrete session. -/
theorem C8_day_count_totals_witness :
    mapTotal ((aggregate [⟨1000, 2000, 1⟩] CountBy.start).perDayCount) =
      ([⟨1000, 2000, 1⟩] : List Session).length ∧
    ([⟨1000, 2000, 1⟩] : List Session).length ≤
      mapTotal ((aggregate [⟨1000, 2000, 1⟩] CountBy.presence).perDayCount) :=
  C8_day_count_totals [⟨1000, 2000, 1⟩]
    (fun s hs => by
      rw [List.mem_singleton] at hs
      subst hs
      decide)

set_option maxRecDepth 40000 in
/-- C1 — Evaluation exhibiting the month-count behaviour of the
`presence` policy: a single session from 2025-09-28 23:00 to
2025-09-29 01:00 touches two days of the same month, and the aggregation
loop increments the `2025-09` month counter once per distinct **day**
(reaching 2), not once per distinct month (which would give 1) — the
loop bumps the month counter inside its per-day iteration. -/
theorem C1_month_presence_eval :
    getA ((aggregate [⟨mkDateMs 2025 9 28 23 0, mkDateMs 2025 9 29 1 0, 2⟩]
      CountBy.presence).perMonthCount) "2025-09" = some 2 := by
  decide
